import Mathlib

set_option maxRecDepth 4000

/-!
Verification of the lsmovie path-metadata extractor.

The program (src/main.rs) walks directory trees, and for each media file
extracts an id and a title from the file stem via the regex
`(?<title>.+)\s+\[(?<id>[^\]]+)\]$` and an owning user from the nearest
`@`-prefixed ancestor path component, printing one JSON line per success
and one diagnostic line per skipped or failed file.

The definitions below embed that program shallowly over `List Char`:

* `isWs` is the character class of the regex escape for whitespace
  (Unicode White_Space, the regex crate default).
* `matchIdTail`, `matchBracketTail`, `matchAfterWs`, `matchWsBracket`,
  `tryTitle`, `matchAt` and `findMatch` together implement the regex with
  the regex crate's leftmost-first semantics.  Where the pattern leaves the
  engine no real choice the embedding is written deterministically; each
  such collapse is justified in the doc comment of the definition.
* `components`, `file_name`, `stem_of_name`, `extension_of_name` model the
  Rust standard library path functions used by the program, for Unix paths.
* `MovieEntry.from_path`, `extract_id`, `extract_user_name`, `process`,
  `visit_dir` and `mainRun` mirror the functions of the same names in the
  source (`mainRun` models `fn main`, with the filesystem made explicit).
-/

namespace Lsmovie

/-- Characters matched by the regex crate's whitespace class (by default it is
Unicode-aware: the White_Space property). -/
def isWs (c : Char) : Bool :=
  c == ' ' || c == '\t' || c == '\n' || c == '\x0b' || c == '\x0c' || c == '\r' ||
  c == '\x85' || c == '\xa0' || c == ' ' ||
  (decide (0x2000 ≤ c.toNat) && decide (c.toNat ≤ 0x200a)) ||
  c == ' ' || c == ' ' || c == ' ' || c == ' ' || c == '　'

/-- The tail `[^\]]+\]$` of the pattern, applied to the remainder of the stem:
the id may not contain `]` and the match must extend to the end of the stem, so
the only possible parse is that everything up to a final `]` is the id. -/
def matchIdTail (cs : List Char) : Option (List Char) :=
  if cs.getLast? == some ']' && !cs.dropLast.isEmpty && !cs.dropLast.contains ']' then
    some cs.dropLast
  else none

/-- The literal `[` of the pattern followed by `matchIdTail`. -/
def matchBracketTail (cs : List Char) : Option (List Char) :=
  match cs with
  | [] => none
  | c :: rest => if c == '[' then matchIdTail rest else none

/-- State of the engine inside the greedy whitespace run `\s+` after at least one
whitespace character has been consumed: consume further whitespace, then require
the bracketed id.  Backtracking inside the run cannot produce further matches,
because stopping the run early leaves a whitespace character where the pattern
next requires `[`, so taking the maximal run is complete. -/
def matchAfterWs (cs : List Char) : Option (List Char) :=
  match cs with
  | [] => none
  | c :: rest => if isWs c then matchAfterWs rest else matchBracketTail (c :: rest)

/-- The part `\s+\[[^\]]+\]$` of the pattern, matched against everything after
the title capture. -/
def matchWsBracket (cs : List Char) : Option (List Char) :=
  match cs with
  | [] => none
  | c :: rest => if isWs c then matchAfterWs rest else none

/-- The greedy title capture `(?<title>.+)`: the engine first lets the title
capture n characters and on failure of the continuation backtracks to shorter
titles, so the longest title whose continuation matches wins.  Returns the
pair (id, title) of captures. -/
def tryTitle (cs : List Char) : Nat → Option (List Char × List Char)
  | 0 => none
  | n + 1 =>
    match matchWsBracket (cs.drop (n + 1)) with
    | some id => some (id, cs.take (n + 1))
    | none => tryTitle cs n

/-- Match the whole pattern at the start of cs.  The dot of the pattern matches
every character except a line feed, so the greedy title can initially extend at
most to the end of the line-feed-free prefix. -/
def matchAt (cs : List Char) : Option (List Char × List Char) :=
  tryTitle cs (cs.takeWhile (fun c => c != '\n')).length

/-- Leftmost-first search, as the regex crate performs for an unanchored
pattern: try to match at each start position from the left, taking the first
position that matches. -/
def findMatch : List Char → Option (List Char × List Char)
  | [] => none
  | c :: rest =>
    match matchAt (c :: rest) with
    | some r => some r
    | none => findMatch rest

/-- Rust `extract_id`: run the regex `(?<title>.+)\s+\[(?<id>[^\]]+)\]$` over
the stem and return the captures as the pair (id, title). -/
def extract_id (stem : String) : Option (String × String) :=
  match findMatch stem.data with
  | some (id, title) => some (⟨id⟩, ⟨title⟩)
  | none => none

/-- Split a character list at every '/'; the separators are dropped and empty
pieces mark adjacent separators. -/
def splitSlash : List Char → List (List Char)
  | [] => [[]]
  | c :: rest =>
    if c == '/' then [] :: splitSlash rest
    else
      match splitSlash rest with
      | g :: gs => (c :: g) :: gs
      | [] => [[c]]

/-- Rust `Path::components` for a Unix path: a leading '/' becomes the root
component, a leading `.` component is kept, and empty segments as well as
non-leading `.` segments are normalized away. -/
def components (path : List Char) : List (List Char) :=
  let parts := (splitSlash path).filter (fun s => !s.isEmpty && s != ['.'])
  let root := if path.head? = some '/' then [['/']] else []
  let curdir := if path = ['.'] ∨ path.take 2 = ['.', '/'] then [['.']] else []
  root ++ curdir ++ parts

/-- Rust `Path::file_name`: the last component, unless it is the root, the
current-directory or the parent-directory component. -/
def file_name (path : List Char) : Option (List Char) :=
  match (components path).getLast? with
  | none => none
  | some c => if c = ['/'] ∨ c = ['.'] ∨ c = ['.', '.'] then none else some c

/-- The stem of a file name, following Rust `Path::file_stem`: the part before
the last '.', except that a name with no '.' or whose only '.' leads is its own
stem. -/
def stem_of_name (name : List Char) : List Char :=
  let ext := (name.reverse.takeWhile (fun c => c != '.')).reverse
  if ext.length = name.length then name
  else if ext.length + 1 = name.length then name
  else name.take (name.length - ext.length - 1)

/-- The extension of a file name, following Rust `Path::extension`: the part
after the last '.', provided that '.' is neither absent nor leading. -/
def extension_of_name (name : List Char) : Option (List Char) :=
  let ext := (name.reverse.takeWhile (fun c => c != '.')).reverse
  if ext.length = name.length then none
  else if ext.length + 1 = name.length then none
  else some ext

/-- `path.file_stem().unwrap_or_default()` as used by `from_path`: empty when
the path has no file name. -/
def file_stem (path : List Char) : List Char :=
  ((file_name path).map stem_of_name).getD []

/-- `path.extension()` as used by `process`. -/
def path_extension (path : List Char) : Option (List Char) :=
  (file_name path).bind extension_of_name

/-- Rust `extract_user_name`: a component is the user when its text starts with
"@"; the whole component is returned. -/
def extract_user_name (component : List Char) : Option (List Char) :=
  if component.head? = some '@' then some component else none

structure MovieEntry where
  id : String
  user : String
  title : String
deriving DecidableEq

/-- Rust `MovieEntry::from_path`: take the file stem of the path, extract
(id, title) from it, then search the path components in reverse order, skipping
the last one, for the user. -/
def MovieEntry.from_path (path : String) : Option MovieEntry :=
  let stem : String := ⟨file_stem path.data⟩
  match extract_id stem with
  | none => none
  | some (id, title) =>
    match ((components path.data).reverse.drop 1).findSome? extract_user_name with
    | none => none
    | some user => some ⟨id, ⟨user⟩, title⟩

def EXTENSIONS : List String := ["mkv", "mp4", "webm"]

/-- Hexadecimal digit characters as serde_json writes them (lowercase). -/
def jsonHexDigit (n : Nat) : Char :=
  if n < 10 then Char.ofNat ('0'.toNat + n) else Char.ofNat ('a'.toNat + n - 10)

/-- serde_json string escaping: quote, backslash and the five short control
escapes; the remaining control characters become a four-digit unicode escape;
everything else, non-ASCII included, is emitted verbatim. -/
def escape_char (c : Char) : List Char :=
  if c = '"' then ['\\', '"']
  else if c = '\\' then ['\\', '\\']
  else if c = '\x08' then ['\\', 'b']
  else if c = '\t' then ['\\', 't']
  else if c = '\n' then ['\\', 'n']
  else if c = '\x0c' then ['\\', 'f']
  else if c = '\r' then ['\\', 'r']
  else if c.toNat < 0x20 then
    ['\\', 'u', '0', '0', jsonHexDigit (c.toNat / 16), jsonHexDigit (c.toNat % 16)]
  else [c]

def escape_string : List Char → List Char
  | [] => []
  | c :: cs => escape_char c ++ escape_string cs

/-- serde_json::to_string of a MovieEntry: a compact object whose members are
the struct fields in declaration order, with escaped string values. -/
def MovieEntry.to_string (e : MovieEntry) : String :=
  ⟨'\x7b' :: '"' :: 'i' :: 'd' :: '"' :: ':' :: '"' ::
    (escape_string e.id.data ++ '"' :: ',' :: '"' :: 'u' :: 's' :: 'e' :: 'r' :: '"' :: ':' :: '"' ::
      (escape_string e.user.data ++ '"' :: ',' :: '"' :: 't' :: 'i' :: 't' :: 'l' :: 'e' :: '"' :: ':' :: '"' ::
        (escape_string e.title.data ++ '"' :: '\x7d' :: [])))⟩

/-- The extraction branch of Rust `process`: one stdout JSON line on success,
one stderr diagnostic on failure. -/
def processMovie (path : String) : List String × List String :=
  match MovieEntry.from_path path with
  | some entry => ([entry.to_string], [])
  | none => ([], ["movie info extraction failed: " ++ path])

/-- Rust `process`: the pair of (stdout lines, stderr lines) the per-file
handler emits for this path.  A present extension outside the allow-list is
diagnosed as ignored; otherwise the extractor runs. -/
def process (path : String) : List String × List String :=
  match path_extension path.data with
  | some ext =>
    if !EXTENSIONS.contains (⟨ext⟩ : String) then ([], ["ignored: " ++ path])
    else processMovie path
  | none => processMovie path

/-- A model of the scanned directory tree.  `badDir` is a directory whose
read_dir call fails (for example for lack of permission). -/
inductive Fs where
  | file (name : String)
  | dir (name : String) (entries : List Fs)
  | badDir (name : String)

def Fs.name : Fs → String
  | .file n => n
  | .dir n _ => n
  | .badDir n => n

def Fs.isDirNode : Fs → Bool
  | .file _ => false
  | .dir _ _ => true
  | .badDir _ => true

mutual

/-- Rust `visit_dir`: a non-directory argument is skipped silently, a failing
read_dir yields an error, and otherwise every entry is handled in order.  The
result collects the paths handed to the callback together with whether the
traversal completed (`true` models `Ok(())`). -/
def visit_dir (path : String) : Fs → List String × Bool
  | .file _ => ([], true)
  | .badDir _ => ([], false)
  | .dir _ entries => visitEntries path entries

/-- The entry loop of `visit_dir`: directories recurse (an error aborts the
remaining entries, as the question-mark operator does), other entries are
passed to the callback. -/
def visitEntries (path : String) : List Fs → List String × Bool
  | [] => ([], true)
  | e :: es =>
    let epath := path ++ "/" ++ e.name
    if e.isDirNode then
      match visit_dir epath e with
      | (out, false) => (out, false)
      | (out, true) =>
        match visitEntries path es with
        | (out2, ok2) => (out ++ out2, ok2)
    else
      match visitEntries path es with
      | (out2, ok2) => (epath :: out2, ok2)

end

/-- Rust `main`: each root argument is traversed and its io::Result is
discarded, so traversal failure of one root does not affect the others.  The
result is the sequence of file paths handed to the callback over all roots. -/
def mainRun : List (String × Fs) → List String
  | [] => []
  | (p, fs) :: rest => (visit_dir p fs).1 ++ mainRun rest

/-- The stdout and stderr streams of a whole run: every visited file is handed
to `process` and the lines it emits are appended. -/
def runStreams (roots : List (String × Fs)) : List String × List String :=
  ((mainRun roots).flatMap (fun p => (process p).1),
   (mainRun roots).flatMap (fun p => (process p).2))

/-- Whether a character list contains a whitespace character immediately
followed by `[` with at least one further character after the `[`.  An id with
this shape offers the greedy title a later bracket to match, which is the one
exception to the id being returned verbatim. -/
def hasInnerWsBracket : List Char → Bool
  | [] => false
  | [_] => false
  | [_, _] => false
  | a :: b :: c :: rest => (isWs a && b == '[') || hasInnerWsBracket (b :: c :: rest)

mutual

/-- Whether the whole tree can be traversed without a read failure. -/
def errFree : Fs → Bool
  | .file _ => true
  | .badDir _ => false
  | .dir _ entries => errFreeList entries

def errFreeList : List Fs → Bool
  | [] => true
  | e :: es => errFree e && errFreeList es

end


/-- Consume one expected character. -/
def expectChar (c : Char) : List Char → Option (List Char)
  | [] => none
  | d :: rest => if d = c then some rest else none

/-- The value of one hexadecimal digit character. -/
def hexVal (c : Char) : Option Nat :=
  if '0' ≤ c ∧ c ≤ '9' then some (c.toNat - '0'.toNat)
  else if 'a' ≤ c ∧ c ≤ 'f' then some (c.toNat - 'a'.toNat + 10)
  else if 'A' ≤ c ∧ c ≤ 'F' then some (c.toNat - 'A'.toNat + 10)
  else none

/-- A JSON string body parser (everything after the opening quote): decodes the
escapes and stops at the closing quote, returning the decoded text and the
remaining input.  Used to state, independently of the serializer, what the
emitted line contains. -/
def parseStringBody : List Char → Option (List Char × List Char)
  | [] => none
  | c :: rest =>
    if c = '"' then some ([], rest)
    else if c = '\\' then
      match rest with
      | [] => none
      | e :: rest2 =>
        if e = '"' then (parseStringBody rest2).map (fun r => ('"' :: r.1, r.2))
        else if e = '\\' then (parseStringBody rest2).map (fun r => ('\\' :: r.1, r.2))
        else if e = '/' then (parseStringBody rest2).map (fun r => ('/' :: r.1, r.2))
        else if e = 'b' then (parseStringBody rest2).map (fun r => ('\x08' :: r.1, r.2))
        else if e = 'f' then (parseStringBody rest2).map (fun r => ('\x0c' :: r.1, r.2))
        else if e = 'n' then (parseStringBody rest2).map (fun r => ('\n' :: r.1, r.2))
        else if e = 'r' then (parseStringBody rest2).map (fun r => ('\r' :: r.1, r.2))
        else if e = 't' then (parseStringBody rest2).map (fun r => ('\t' :: r.1, r.2))
        else if e = 'u' then
          match rest2 with
          | u1 :: u2 :: u3 :: u4 :: rest3 =>
            match hexVal u1, hexVal u2, hexVal u3, hexVal u4 with
            | some v1, some v2, some v3, some v4 =>
              (parseStringBody rest3).map
                (fun r => (Char.ofNat (((v1 * 16 + v2) * 16 + v3) * 16 + v4) :: r.1, r.2))
            | _, _, _, _ => none
          | _ => none
        else none
    else if c.toNat < 0x20 then none
    else (parseStringBody rest).map (fun r => (c :: r.1, r.2))

/-- Parse one member "key":"value" of a JSON object of string values. -/
def parseMember (cs : List Char) : Option ((List Char × List Char) × List Char) :=
  match expectChar '"' cs with
  | none => none
  | some r1 =>
    match parseStringBody r1 with
    | none => none
    | some (k, r2) =>
      match expectChar ':' r2 with
      | none => none
      | some r3 =>
        match expectChar '"' r3 with
        | none => none
        | some r4 =>
          match parseStringBody r4 with
          | none => none
          | some (v, r5) => some ((k, v), r5)

/-- Parse a complete JSON object that consists of exactly three string-valued
members, covering the whole input. -/
def parseObj3 (cs : List Char) : Option (List (List Char × List Char)) :=
  match expectChar '\x7b' cs with
  | none => none
  | some r0 =>
    match parseMember r0 with
    | none => none
    | some (m1, r1) =>
      match expectChar ',' r1 with
      | none => none
      | some r2 =>
        match parseMember r2 with
        | none => none
        | some (m2, r3) =>
          match expectChar ',' r3 with
          | none => none
          | some r4 =>
            match parseMember r4 with
            | none => none
            | some (m3, r5) =>
              match expectChar '\x7d' r5 with
              | none => none
              | some r6 => if r6 = [] then some [m1, m2, m3] else none

/-! ### Lemmas about the regex embedding -/


lemma matchIdTail_concat (i : List Char) (hi : i ≠ []) (hib : ']' ∉ i) :
    matchIdTail (i ++ [']']) = some i := by
  unfold matchIdTail
  rw [List.getLast?_concat, List.dropLast_concat]
  simp [hi, hib]

lemma matchIdTail_sound {cs i : List Char} (h : matchIdTail cs = some i) :
    cs = i ++ [']'] ∧ i ≠ [] ∧ ']' ∉ i := by
  unfold matchIdTail at h
  by_cases hc : (cs.getLast? == some ']' && !cs.dropLast.isEmpty && !cs.dropLast.contains ']') = true
  · rw [if_pos hc] at h
    injection h with h'
    subst h'
    simp only [Bool.and_eq_true, beq_iff_eq, Bool.not_eq_true'] at hc
    obtain ⟨⟨h1, h2⟩, h3⟩ := hc
    refine ⟨(List.dropLast_append_getLast? ']' h1).symm, ?_, ?_⟩
    · simpa [List.isEmpty_iff] using h2
    · simpa using h3
  · rw [if_neg hc] at h
    exact absurd h (by simp)

lemma matchWsBracket_complete (w : Char) (i : List Char) (hw : isWs w = true)
    (hi : i ≠ []) (hib : ']' ∉ i) :
    matchWsBracket (w :: '[' :: (i ++ [']'])) = some i := by
  have hlb : isWs '[' = false := by decide
  simp only [matchWsBracket, hw, if_pos, matchAfterWs, hlb, Bool.false_eq_true, if_neg,
    if_false, matchBracketTail, beq_self_eq_true, if_true]
  exact matchIdTail_concat i hi hib

lemma matchAfterWs_sound {cs i : List Char} (h : matchAfterWs cs = some i) :
    ∃ ws, (∀ c ∈ ws, isWs c = true) ∧ cs = ws ++ '[' :: (i ++ [']']) ∧ i ≠ [] ∧ ']' ∉ i := by
  induction cs with
  | nil => simp [matchAfterWs] at h
  | cons c rest ih =>
    by_cases hc : isWs c = true
    · rw [matchAfterWs, if_pos hc] at h
      obtain ⟨ws, hws, hrest, hi, hib⟩ := ih h
      refine ⟨c :: ws, ?_, by simp [hrest], hi, hib⟩
      intro a ha
      rcases List.mem_cons.mp ha with h1 | h2
      · exact h1 ▸ hc
      · exact hws a h2
    · rw [matchAfterWs, if_neg hc] at h
      rw [matchBracketTail] at h
      by_cases hcb : (c == '[') = true
      · rw [if_pos hcb] at h
        obtain ⟨hrest, hi, hib⟩ := matchIdTail_sound h
        have hceq : c = '[' := by simpa [beq_iff_eq] using hcb
        exact ⟨[], by simp, by simp [hceq, hrest], hi, hib⟩
      · rw [if_neg hcb] at h
        exact absurd h (by simp)

lemma matchWsBracket_sound {cs i : List Char} (h : matchWsBracket cs = some i) :
    ∃ ws, ws ≠ [] ∧ (∀ c ∈ ws, isWs c = true) ∧ cs = ws ++ '[' :: (i ++ [']']) ∧
      i ≠ [] ∧ ']' ∉ i := by
  match cs with
  | [] => simp [matchWsBracket] at h
  | c :: rest =>
    by_cases hc : isWs c = true
    · rw [matchWsBracket, if_pos hc] at h
      obtain ⟨ws, hws, hrest, hi, hib⟩ := matchAfterWs_sound h
      refine ⟨c :: ws, by simp, ?_, by simp [hrest], hi, hib⟩
      intro a ha
      rcases List.mem_cons.mp ha with h1 | h2
      · exact h1 ▸ hc
      · exact hws a h2
    · rw [matchWsBracket, if_neg hc] at h
      exact absurd h (by simp)

lemma hasInnerWsBracket_tail {c : Char} {l : List Char}
    (h : hasInnerWsBracket (c :: l) = false) : hasInnerWsBracket l = false := by
  match l with
  | [] => rfl
  | [d] => rfl
  | d :: e :: rest =>
    rw [hasInnerWsBracket, Bool.or_eq_false_iff] at h
    exact h.2

lemma hasInnerWsBracket_drop {l : List Char} (h : hasInnerWsBracket l = false) :
    ∀ k, hasInnerWsBracket (l.drop k) = false := by
  induction l with
  | nil => intro k; simp [List.drop_nil, h]
  | cons c l ih =>
    intro k
    match k with
    | 0 => exact h
    | k + 1 => exact ih (hasInnerWsBracket_tail h) k

lemma matchAfterWs_append_none (l : List Char) (hb : ']' ∉ l)
    (hiw : hasInnerWsBracket l = false) (hhead : ∀ m, l = '[' :: m → m = []) :
    matchAfterWs (l ++ [']']) = none := by
  induction l with
  | nil =>
    show matchAfterWs [']'] = none
    have h1 : isWs ']' = false := by decide
    rw [matchAfterWs, if_neg (by simp [h1]), matchBracketTail, if_neg (by decide)]
  | cons c l ih =>
    by_cases hc : isWs c = true
    · rw [List.cons_append, matchAfterWs, if_pos hc]
      refine ih (fun hm => hb (List.mem_cons_of_mem c hm)) (hasInnerWsBracket_tail hiw) ?_
      intro m hm
      by_contra hne
      match m, hne with
      | m0 :: rest, _ =>
        rw [hm] at hiw
        rw [hasInnerWsBracket, hc, Bool.true_and, beq_self_eq_true, Bool.true_or] at hiw
        exact Bool.true_eq_false.mp hiw
    · rw [List.cons_append, matchAfterWs, if_neg hc, matchBracketTail]
      by_cases hcb : (c == '[') = true
      · have hceq : c = '[' := by simpa [beq_iff_eq] using hcb
        have hl : l = [] := hhead l (by rw [hceq])
        rw [if_pos hcb, hl]
        rfl
      · rw [if_neg hcb]

lemma matchWsBracket_append_none (l : List Char) (hb : ']' ∉ l)
    (hiw : hasInnerWsBracket l = false) :
    matchWsBracket (l ++ [']']) = none := by
  match l with
  | [] =>
    show matchWsBracket [']'] = none
    have h1 : isWs ']' = false := by decide
    rw [matchWsBracket, if_neg (by simp [h1])]
  | c :: l =>
    by_cases hc : isWs c = true
    · rw [List.cons_append, matchWsBracket, if_pos hc]
      refine matchAfterWs_append_none l (fun hm => hb (List.mem_cons_of_mem c hm))
        (hasInnerWsBracket_tail hiw) ?_
      intro m hm
      by_contra hne
      match m, hne with
      | m0 :: rest, _ =>
        rw [hm] at hiw
        rw [hasInnerWsBracket, hc, Bool.true_and, beq_self_eq_true, Bool.true_or] at hiw
        exact Bool.true_eq_false.mp hiw
    · rw [List.cons_append, matchWsBracket, if_neg hc]

lemma matchWsBracket_suffix_none (i : List Char) (hb : ']' ∉ i)
    (hiw : hasInnerWsBracket i = false) (k : Nat) :
    matchWsBracket (('[' :: (i ++ [']'])).drop k) = none := by
  match k with
  | 0 =>
    have h1 : isWs '[' = false := by decide
    rw [List.drop_zero, matchWsBracket, if_neg (by simp [h1])]
  | k + 1 =>
    rw [List.drop_succ_cons]
    by_cases hk : k ≤ i.length
    · rw [List.drop_append_of_le_length hk]
      exact matchWsBracket_append_none (i.drop k)
        (fun hm => hb (List.mem_of_mem_drop hm)) (hasInnerWsBracket_drop hiw k)
    · rw [List.drop_eq_nil_of_le (by simp; omega)]
      rfl

lemma tryTitle_eq_of_hit (cs : List Char) (idv : List Char) (j : Nat) :
    ∀ n, 1 ≤ j → j ≤ n → matchWsBracket (cs.drop j) = some idv →
    (∀ m, j < m → matchWsBracket (cs.drop m) = none) →
    tryTitle cs n = some (idv, cs.take j) := by
  intro n
  induction n with
  | zero => intro h1 h2; omega
  | succ n ih =>
    intro h1 h2 hhit hmiss
    by_cases hj : j = n + 1
    · subst hj
      rw [tryTitle, hhit]
    · have hjn : j ≤ n := by omega
      rw [tryTitle, hmiss (n + 1) (by omega)]
      exact ih h1 hjn hhit hmiss

lemma tryTitle_sound {cs idv ttl : List Char} :
    ∀ {n}, tryTitle cs n = some (idv, ttl) →
    ∃ j, 1 ≤ j ∧ j ≤ n ∧ matchWsBracket (cs.drop j) = some idv ∧ ttl = cs.take j := by
  intro n
  induction n with
  | zero => intro h; exact absurd h (by rw [tryTitle]; simp)
  | succ n ih =>
    intro h
    rw [tryTitle] at h
    cases hm : matchWsBracket (cs.drop (n + 1)) with
    | some idv2 =>
      rw [hm] at h
      injection h with h'
      injection h' with ha hb
      exact ⟨n + 1, by omega, le_refl _, by rw [hm, ha], hb.symm⟩
    | none =>
      rw [hm] at h
      obtain ⟨j, hj1, hj2, hj3, hj4⟩ := ih h
      exact ⟨j, hj1, by omega, hj3, hj4⟩

lemma tryTitle_ne_none (cs : List Char) (j : Nat) (hj : 1 ≤ j)
    (hhit : matchWsBracket (cs.drop j) ≠ none) :
    ∀ n, j ≤ n → tryTitle cs n ≠ none := by
  intro n
  induction n with
  | zero => intro h; omega
  | succ n ih =>
    intro hjn
    rw [tryTitle]
    cases hm : matchWsBracket (cs.drop (n + 1)) with
    | some idv2 => simp
    | none =>
      simp only []
      by_cases hj2 : j = n + 1
      · exact absurd (hj2 ▸ hm) hhit
      · exact ih (by omega)

/-- The central characterization: on a stem built as title, single whitespace
separator, bracketed id, the matcher returns exactly these captures, provided
the title has no line feed, the id does not contain the closing bracket, and
the id gives the greedy title no later whitespace-bracket pair to prefer. -/
lemma findMatch_decomp (t i : List Char) (w : Char) (ht : t ≠ []) (hn : '\n' ∉ t)
    (hw : isWs w = true) (hi : i ≠ []) (hib : ']' ∉ i)
    (hiw : hasInnerWsBracket i = false) :
    findMatch (t ++ w :: '[' :: (i ++ [']'])) = some (i, t) := by
  set R : List Char := w :: '[' :: (i ++ [']']) with hR
  have hdropt : (t ++ R).drop t.length = R := List.drop_left t R
  have hhit : matchWsBracket ((t ++ R).drop t.length) = some i := by
    rw [hdropt, hR]
    exact matchWsBracket_complete w i hw hi hib
  have hmiss : ∀ m, t.length < m → matchWsBracket ((t ++ R).drop m) = none := by
    intro m hm
    have hmd : m = t.length + (m - t.length) := by omega
    rw [hmd, ← List.drop_drop, hdropt]
    have hd1 : 1 ≤ m - t.length := by omega
    have hmd2 : m - t.length = 1 + (m - t.length - 1) := by omega
    rw [hmd2, ← List.drop_drop, hR, List.drop_one, List.tail_cons]
    exact matchWsBracket_suffix_none i hib hiw (m - t.length - 1)
  have htM : t.length ≤ ((t ++ R).takeWhile (fun c => c != '\n')).length := by
    have hall : ∀ c ∈ t, (c != '\n') = true := by
      intro c hc
      simp only [bne_iff_ne, ne_eq]
      exact fun he => hn (he ▸ hc)
    rw [List.takeWhile_append_of_pos hall]
    simp
  have hmatchAt : matchAt (t ++ R) = some (i, t) := by
    have := tryTitle_eq_of_hit (t ++ R) i t.length
      ((t ++ R).takeWhile (fun c => c != '\n')).length
      (by match t, ht with | c :: t2, _ => simp) htM hhit hmiss
    rw [matchAt, this, List.take_left]
  match t, ht with
  | c :: t2, _ =>
    rw [List.cons_append, findMatch, ← List.cons_append, hmatchAt]

lemma matchAt_sound {cs idv ttl : List Char} (h : matchAt cs = some (idv, ttl)) :
    ∃ ws, ws ≠ [] ∧ (∀ c ∈ ws, isWs c = true) ∧
      cs = ttl ++ ws ++ '[' :: (idv ++ [']']) ∧ ttl ≠ [] ∧ idv ≠ [] ∧ ']' ∉ idv := by
  obtain ⟨j, hj1, hj2, hj3, hj4⟩ := tryTitle_sound h
  obtain ⟨ws, hws1, hws2, hws3, hws4, hws5⟩ := matchWsBracket_sound hj3
  refine ⟨ws, hws1, hws2, ?_, ?_, hws4, hws5⟩
  · rw [hj4, List.append_assoc, ← hws3, List.take_append_drop]
  · rw [hj4]
    cases cs with
    | nil =>
      rw [List.drop_nil] at hj3
      exact absurd hj3 (by rw [matchWsBracket]; simp)
    | cons c rest =>
      match j, hj1 with
      | j + 1, _ => simp

lemma matchAt_cons_ne_none {c : Char} {cs : List Char} (hc : c ≠ '\n')
    (h : matchAt cs ≠ none) : matchAt (c :: cs) ≠ none := by
  cases hm : matchAt cs with
  | none => exact absurd hm h
  | some r =>
    obtain ⟨idv, ttl⟩ := r
    obtain ⟨j, hj1, hj2, hj3, _⟩ := tryTitle_sound hm
    have hdrop : (c :: cs).drop (j + 1) = cs.drop j := by
      rw [List.drop_succ_cons]
    have hM : ((c :: cs).takeWhile (fun c => c != '\n')).length =
        (cs.takeWhile (fun c => c != '\n')).length + 1 := by
      rw [List.takeWhile_cons, if_pos (by simpa [bne_iff_ne] using hc)]
      simp
    rw [matchAt, hM]
    refine tryTitle_ne_none (c :: cs) (j + 1) (by omega) ?_ _ (by omega)
    rw [hdrop, hj3]
    simp

/-- On a line-feed-free haystack the leftmost match of this pattern starts at
the first character: a match at a later start extends to one at the start,
because the greedy dot accepts every character before it. -/
lemma findMatch_eq_matchAt {cs : List Char} (hn : '\n' ∉ cs) {r} :
    findMatch cs = some r → matchAt cs = some r := by
  induction cs with
  | nil => intro h; exact absurd h (by rw [findMatch]; simp)
  | cons c rest ih =>
    intro h
    rw [findMatch] at h
    cases hm : matchAt (c :: rest) with
    | some r2 =>
      rw [hm] at h
      exact h
    | none =>
      rw [hm] at h
      have hr : matchAt rest = some r := ih (fun hmem => hn (List.mem_cons_of_mem c hmem)) h
      have hne : matchAt (c :: rest) ≠ none :=
        matchAt_cons_ne_none (fun he => hn (he ▸ List.mem_cons_self c rest)) (by rw [hr]; simp)
      exact absurd hm hne

/-! ### Claim theorems for the extractor pattern -/

/-- C1, counterexample: the claim promises that for every stem of the form
title, whitespace run, bracketed id, both captures are returned verbatim with
the whole separating whitespace run excluded.  The stem "a  [b]" has this form
with title "a", whitespace run of two spaces and id "b", but the greedy title
capture absorbs all but the last whitespace character, so the returned title is
"a " and not "a". -/
theorem extract_id_verbatim_cex :
    ("a  [b]" : String) = "a" ++ "  " ++ "[" ++ "b" ++ "]" ∧
    extract_id "a  [b]" = some ("b", "a ") ∧
    extract_id "a  [b]" ≠ some ("b", "a") := by
  refine ⟨rfl, rfl, ?_⟩
  intro h
  rw [show extract_id "a  [b]" = some ("b", "a ") from rfl] at h
  injection h with h'
  injection h' with ha hb
  exact absurd hb (by decide)

/-- C1, amended: for every stem of the form title, single whitespace separator,
bracketed non-empty id without closing bracket, extract_id returns exactly that
id and exactly that title, provided the title contains no line feed and the id
contains no whitespace-preceded `[` that is followed by a further character
(otherwise the greedy title absorbs material beyond the claimed title). -/
theorem extract_id_verbatim (t i : List Char) (w : Char) (ht : t ≠ []) (hn : '\n' ∉ t)
    (hw : isWs w = true) (hi : i ≠ []) (hib : ']' ∉ i)
    (hiw : hasInnerWsBracket i = false) :
    extract_id ⟨t ++ w :: '[' :: (i ++ [']'])⟩ = some (⟨i⟩, ⟨t⟩) := by
  rw [extract_id]
  rw [show (⟨t ++ w :: '[' :: (i ++ [']'])⟩ : String).data = t ++ w :: '[' :: (i ++ [']'])
    from rfl]
  rw [findMatch_decomp t i w ht hn hw hi hib hiw]

/-- Witness for the amended C1 at the concrete stem "a [b]". -/
theorem extract_id_verbatim_witness : extract_id "a [b]" = some ("b", "a") :=
  extract_id_verbatim ['a'] ['b'] ' ' (by decide) (by decide) (by decide) (by decide)
    (by decide) (by decide)

/-- C9: on a stem without line feed, a successful extraction decomposes the
whole stem as title, non-empty whitespace run, bracketed id: although the
compiled pattern has no start anchor, the leftmost-first match begins at the
first character, so the title capture is a prefix of the stem. -/
theorem extract_id_title_anchored (stem : String) (hn : '\n' ∉ stem.data)
    (idv ttl : String) (h : extract_id stem = some (idv, ttl)) :
    ∃ ws : List Char, ws ≠ [] ∧ (∀ c ∈ ws, isWs c = true) ∧
      stem.data = ttl.data ++ ws ++ '[' :: (idv.data ++ [']']) := by
  rw [extract_id] at h
  cases hm : findMatch stem.data with
  | none =>
    rw [hm] at h
    exact absurd h (by simp)
  | some r =>
    obtain ⟨il, tl⟩ := r
    rw [hm] at h
    have h2 : some ((⟨il⟩ : String), (⟨tl⟩ : String)) = some (idv, ttl) := h
    injection h2 with h3
    injection h3 with ha hb
    have hA := findMatch_eq_matchAt hn hm
    obtain ⟨ws, hws1, hws2, hws3, _, _, _⟩ := matchAt_sound hA
    refine ⟨ws, hws1, hws2, ?_⟩
    rw [← ha, ← hb]
    exact hws3

/-- Witness for C9 at the concrete stem "x [y]". -/
theorem extract_id_title_anchored_witness :
    ∃ ws : List Char, ws ≠ [] ∧ (∀ c ∈ ws, isWs c = true) ∧
      ("x [y]" : String).data = ("x" : String).data ++ ws ++ '[' :: (("y" : String).data ++ [']']) :=
  extract_id_title_anchored "x [y]" (by decide) "y" "x" (by rfl)

/-- C10: with two trailing bracketed groups, the id is taken from the final
pair only and the earlier group stays inside the title, because the title
capture is greedy. -/
theorem extract_id_last_bracket (t b c : List Char) (w1 w2 : Char)
    (ht : t ≠ []) (hn : '\n' ∉ t) (hw1 : isWs w1 = true) (hnw1 : w1 ≠ '\n')
    (hb : b ≠ []) (hbb : ']' ∉ b) (hnb : '\n' ∉ b)
    (hw2 : isWs w2 = true) (hc : c ≠ []) (hcb : ']' ∉ c)
    (hcw : hasInnerWsBracket c = false) :
    extract_id ⟨(t ++ (w1 :: '[' :: (b ++ [']']))) ++ (w2 :: '[' :: (c ++ [']']))⟩ =
      some (⟨c⟩, ⟨t ++ (w1 :: '[' :: (b ++ [']']))⟩) := by
  have hT : t ++ (w1 :: '[' :: (b ++ [']'])) ≠ [] := by simp
  have hTn : '\n' ∉ t ++ (w1 :: '[' :: (b ++ [']'])) := by
    intro hmem
    rcases List.mem_append.mp hmem with h1 | h2
    · exact hn h1
    · rcases List.mem_cons.mp h2 with h3 | h4
      · exact hnw1 h3.symm
      · rcases List.mem_cons.mp h4 with h5 | h6
        · exact absurd h5 (by decide)
        · rcases List.mem_append.mp h6 with h7 | h8
          · exact hnb h7
          · exact absurd h8 (by decide)
  rw [extract_id]
  rw [show (⟨(t ++ (w1 :: '[' :: (b ++ [']']))) ++ (w2 :: '[' :: (c ++ [']']))⟩ : String).data =
    (t ++ (w1 :: '[' :: (b ++ [']']))) ++ w2 :: '[' :: (c ++ [']']) from rfl]
  rw [findMatch_decomp (t ++ (w1 :: '[' :: (b ++ [']']))) c w2 hT hTn hw2 hc hcb hcw]

/-- Witness for C10 at the concrete stem "a [b] [c]". -/
theorem extract_id_last_bracket_witness : extract_id "a [b] [c]" = some ("c", "a [b]") :=
  extract_id_last_bracket ['a'] ['b'] ['c'] ' ' ' ' (by decide) (by decide) (by decide)
    (by decide) (by decide) (by decide) (by decide) (by decide) (by decide) (by decide)
    (by decide)

/-- C7: the concrete test path of the repository, with a multi-byte Unicode
title, extracts to exactly the expected record. -/
theorem from_path_unicode_example :
    MovieEntry.from_path "./@path/to/@foobar/baz/@FooBar (2024年11月1日) [aBcDeFgHiJkL].webm" =
      some ⟨"aBcDeFgHiJkL", "@foobar", "@FooBar (2024年11月1日)"⟩ := by
  decide

/-! ### Claim theorems for the owner lookup -/

lemma findSome?_user_eq_find? (l : List (List Char)) :
    l.findSome? extract_user_name = l.find? (fun cmp => cmp.head? == some '@') := by
  induction l with
  | nil => rfl
  | cons c cs ih =>
    rw [List.findSome?_cons, List.find?_cons]
    by_cases hc : c.head? = some '@'
    · simp [extract_user_name, hc]
    · have hbeq : (c.head? == some '@') = false := by simpa using hc
      simp [extract_user_name, hc, hbeq, ih]

/-- C2: when extraction succeeds, the user field is the first component that
starts with `@` among the path components scanned in reverse order with the
final component excluded, so the nearest `@`-prefixed ancestor wins and the
file name itself is never chosen. -/
theorem owner_nearest (p : String) (e : MovieEntry) (h : MovieEntry.from_path p = some e) :
    ((components p.data).dropLast.reverse).find? (fun cmp => cmp.head? == some '@') =
      some e.user.data := by
  simp only [MovieEntry.from_path] at h
  cases hx : extract_id ⟨file_stem p.data⟩ with
  | none =>
    rw [hx] at h
    exact absurd h (by simp)
  | some r =>
    obtain ⟨id, title⟩ := r
    rw [hx] at h
    cases hu : ((components p.data).reverse.drop 1).findSome? extract_user_name with
    | none =>
      rw [hu] at h
      exact absurd h (by simp)
    | some user =>
      rw [hu] at h
      have h2 : some (⟨id, ⟨user⟩, title⟩ : MovieEntry) = some e := h
      injection h2 with h3
      rw [← h3]
      show ((components p.data).dropLast.reverse).find? (fun cmp => cmp.head? == some '@') =
        some user
      rw [← List.tail_reverse, ← List.drop_one, ← findSome?_user_eq_find?]
      exact hu

/-- Witness for C2: on a path with two `@` ancestors the nearer one is found. -/
theorem owner_nearest_witness :
    ((components ("./@outer/mid/@inner/f [i].mkv" : String).data).dropLast.reverse).find?
      (fun cmp => cmp.head? == some '@') = some ("@inner" : String).data :=
  owner_nearest "./@outer/mid/@inner/f [i].mkv" ⟨"i", "@inner", "f"⟩ (by rfl)

/-- C3: from_path succeeds exactly when both the id/title extraction on the
stem and the reverse `@`-component lookup succeed, and in particular a path
with no `@`-prefixed ancestor component yields none. -/
theorem from_path_requires_both (p : String) :
    ((MovieEntry.from_path p).isSome ↔
      ((extract_id ⟨file_stem p.data⟩).isSome ∧
        (((components p.data).reverse.drop 1).findSome? extract_user_name).isSome)) ∧
    ((∀ cmp ∈ (components p.data).dropLast, cmp.head? ≠ some '@') →
      MovieEntry.from_path p = none) := by
  have hiff : (MovieEntry.from_path p).isSome ↔
      ((extract_id ⟨file_stem p.data⟩).isSome ∧
        (((components p.data).reverse.drop 1).findSome? extract_user_name).isSome) := by
    simp only [MovieEntry.from_path]
    cases hx : extract_id ⟨file_stem p.data⟩ with
    | none => simp
    | some r =>
      obtain ⟨id, title⟩ := r
      cases hu : ((components p.data).reverse.drop 1).findSome? extract_user_name with
      | none => simp
      | some user => simp
  refine ⟨hiff, ?_⟩
  intro hall
  have hnone : ((components p.data).reverse.drop 1).findSome? extract_user_name = none := by
    rw [findSome?_user_eq_find?, List.find?_eq_none]
    intro x hx2
    rw [List.drop_one, List.tail_reverse] at hx2
    have hx3 : x ∈ (components p.data).dropLast := List.mem_reverse.mp hx2
    simpa using hall x hx3
  have h2 : ¬(MovieEntry.from_path p).isSome := by
    rw [hiff]
    rintro ⟨-, hs⟩
    rw [hnone] at hs
    exact absurd hs (by simp)
  exact Option.not_isSome_iff_eq_none.mp h2

/-- Witness for C3: a matching file name without any `@` ancestor yields none. -/
theorem from_path_requires_both_witness : MovieEntry.from_path "a/b/c [d].mkv" = none :=
  (from_path_requires_both "a/b/c [d].mkv").2 (by decide)

/-! ### Claim theorems for the per-file handler -/

lemma processMovie_one (p : String) :
    (processMovie p).1.length + (processMovie p).2.length = 1 := by
  rw [processMovie]
  cases MovieEntry.from_path p <;> simp

/-- C4: a file with an extension outside the allow-list only produces the
ignored diagnostic (no stdout line, extraction never runs), while a file with
no extension at all skips the filter and goes to the extraction branch. -/
theorem extension_filter (p : String) :
    (∀ ext, path_extension p.data = some ext → (⟨ext⟩ : String) ∉ EXTENSIONS →
      process p = ([], ["ignored: " ++ p])) ∧
    (path_extension p.data = none → process p = processMovie p) := by
  constructor
  · intro ext hext hnotin
    simp only [process, hext]
    rw [if_pos (by simpa using hnotin)]
  · intro hext
    simp only [process, hext]

/-- Witness for C4: a file whose name matches the pattern but whose extension
(case-sensitively) is not allowed is only diagnosed as ignored. -/
theorem extension_filter_witness :
    process "@u/film [x].MKV" = ([], ["ignored: " ++ "@u/film [x].MKV"]) :=
  (extension_filter "@u/film [x].MKV").1 ("MKV" : String).data (by rfl) (by decide)

/-- C5: the handler emits exactly one line per file, and over a whole run the
number of emitted lines equals the number of visited files. -/
theorem one_line_per_file :
    (∀ p : String, (process p).1.length + (process p).2.length = 1) ∧
    (∀ roots : List (String × Fs),
      (runStreams roots).1.length + (runStreams roots).2.length = (mainRun roots).length) := by
  have hone : ∀ p : String, (process p).1.length + (process p).2.length = 1 := by
    intro p
    cases hx : path_extension p.data with
    | none =>
      simp only [process, hx]
      exact processMovie_one p
    | some ext =>
      simp only [process, hx]
      by_cases hc : (!EXTENSIONS.contains (⟨ext⟩ : String)) = true
      · rw [if_pos hc]
        rfl
      · rw [if_neg hc]
        exact processMovie_one p
  have hstream : ∀ l : List String,
      (l.flatMap (fun q => (process q).1)).length +
        (l.flatMap (fun q => (process q).2)).length = l.length := by
    intro l
    induction l with
    | nil => simp
    | cons p ps ih =>
      rw [List.flatMap_cons, List.flatMap_cons, List.length_append, List.length_append,
        List.length_cons]
      have hp := hone p
      omega
  refine ⟨hone, ?_⟩
  intro roots
  rw [runStreams]
  exact hstream (mainRun roots)

/-! ### Claim theorems for the walker -/

mutual

theorem visit_dir_ok (p : String) (e : Fs) (h : errFree e = true) :
    (visit_dir p e).2 = true := by
  match e with
  | .file n => simp [visit_dir]
  | .badDir n => rw [errFree] at h; exact absurd h (by simp)
  | .dir n es =>
    rw [visit_dir]
    rw [errFree] at h
    exact visitEntries_ok p es h

theorem visitEntries_ok (p : String) (es : List Fs) (h : errFreeList es = true) :
    (visitEntries p es).2 = true := by
  match es with
  | [] => simp [visitEntries]
  | e :: es2 =>
    rw [errFreeList, Bool.and_eq_true] at h
    obtain ⟨h1, h2⟩ := h
    simp only [visitEntries]
    by_cases hd : e.isDirNode = true
    · rw [if_pos hd]
      have hok := visit_dir_ok (p ++ "/" ++ e.name) e h1
      cases hv : visit_dir (p ++ "/" ++ e.name) e with
      | mk out ok =>
        rw [hv] at hok
        simp only at hok
        subst hok
        exact visitEntries_ok p es2 h2
    · rw [if_neg hd]
      exact visitEntries_ok p es2 h2

end

lemma visitEntries_break (p bad : String) (es2 : List Fs) :
    ∀ es1, errFreeList es1 = true →
      visitEntries p (es1 ++ Fs.badDir bad :: es2) = ((visitEntries p es1).1, false) := by
  intro es1
  induction es1 with
  | nil =>
    intro h
    rw [List.nil_append]
    simp only [visitEntries, visit_dir]
    rfl
  | cons e es ih =>
    intro h
    rw [errFreeList, Bool.and_eq_true] at h
    obtain ⟨h1, h2⟩ := h
    rw [List.cons_append]
    simp only [visitEntries]
    by_cases hd : e.isDirNode = true
    · rw [if_pos hd, if_pos hd]
      have hok := visit_dir_ok (p ++ "/" ++ e.name) e h1
      cases hv : visit_dir (p ++ "/" ++ e.name) e with
      | mk out ok =>
        rw [hv] at hok
        simp only at hok
        subst hok
        rw [ih h2]
    · rw [if_neg hd, if_neg hd]
      rw [ih h2]

/-- C8: a read failure inside one root aborts the traversal of that root (the
entries after the failing directory are never visited and the root's result is
the error), while the driver, which discards each root's result, still
processes the remaining roots. -/
theorem traversal_abort_root_independent (p root bad : String) (es1 es2 : List Fs)
    (rest : List (String × Fs)) (h : errFreeList es1 = true) :
    visit_dir p (Fs.dir root (es1 ++ Fs.badDir bad :: es2)) = ((visitEntries p es1).1, false) ∧
    mainRun ((p, Fs.dir root (es1 ++ Fs.badDir bad :: es2)) :: rest) =
      (visitEntries p es1).1 ++ mainRun rest := by
  have hmain := visitEntries_break p bad es2 es1 h
  constructor
  · rw [visit_dir]
    exact hmain
  · rw [mainRun, visit_dir, hmain]

/-- Witness for C8: one good file before the failure is reported, the file
after it is not, and a second root is still traversed. -/
theorem traversal_abort_witness :
    visit_dir "r" (Fs.dir "d" ([Fs.file "a.mkv"] ++ Fs.badDir "x" :: [Fs.file "b.mkv"])) =
      ((visitEntries "r" [Fs.file "a.mkv"]).1, false) ∧
    mainRun (("r", Fs.dir "d" ([Fs.file "a.mkv"] ++ Fs.badDir "x" :: [Fs.file "b.mkv"])) ::
        [("s", Fs.dir "e" [Fs.file "c.mkv"])]) =
      (visitEntries "r" [Fs.file "a.mkv"]).1 ++ mainRun [("s", Fs.dir "e" [Fs.file "c.mkv"])] :=
  traversal_abort_root_independent "r" "d" "x" [Fs.file "a.mkv"] [Fs.file "b.mkv"]
    [("s", Fs.dir "e" [Fs.file "c.mkv"])] (by simp [errFreeList, errFree])

/-! ### Claim theorems for the JSON output -/

lemma hexVal_jsonHexDigit (n : Nat) (h : n < 16) : hexVal (jsonHexDigit n) = some n := by
  interval_cases n <;> decide

lemma jsonHexDigit_ne_nl (n : Nat) (h : n < 16) : jsonHexDigit n ≠ '\n' := by
  interval_cases n <;> decide

lemma escape_char_no_nl (c : Char) : '\n' ∉ escape_char c := by
  rw [escape_char]
  split_ifs with h1 h2 h3 h4 h5 h6 h7 h8
  · decide
  · decide
  · decide
  · decide
  · decide
  · decide
  · decide
  · intro hmem
    have hd1 := jsonHexDigit_ne_nl (c.toNat / 16) (by omega)
    have hd2 := jsonHexDigit_ne_nl (c.toNat % 16) (by omega)
    simp only [List.mem_cons, List.not_mem_nil] at hmem
    rcases hmem with h | h | h | h | h | h | h
    · exact absurd h (by decide)
    · exact absurd h (by decide)
    · exact absurd h (by decide)
    · exact absurd h (by decide)
    · exact hd1 h.symm
    · exact hd2 h.symm
    · exact h
  · intro hmem
    simp only [List.mem_cons, List.not_mem_nil] at hmem
    rcases hmem with h | h
    · rw [← h] at h8
      exact absurd (by decide) h8
    · exact h

lemma escape_string_no_nl (s : List Char) : '\n' ∉ escape_string s := by
  induction s with
  | nil => simp [escape_string]
  | cons c s ih =>
    rw [escape_string]
    intro hmem
    rcases List.mem_append.mp hmem with h | h
    · exact escape_char_no_nl c h
    · exact ih h

lemma parseStringBody_escape (s : List Char) :
    ∀ rest, parseStringBody (escape_string s ++ '"' :: rest) = some (s, rest) := by
  induction s with
  | nil =>
    intro rest
    rw [escape_string, List.nil_append, parseStringBody.eq_def]
    simp
  | cons c s ih =>
    intro rest
    rw [escape_string, List.append_assoc, escape_char]
    split_ifs with h1 h2 h3 h4 h5 h6 h7 h8
    · subst h1; rw [List.cons_append, List.cons_append, parseStringBody.eq_def]; simp [ih]
    · subst h2; rw [List.cons_append, List.cons_append, parseStringBody.eq_def]; simp [ih]
    · subst h3; rw [List.cons_append, List.cons_append, parseStringBody.eq_def]; simp [ih]
    · subst h4; rw [List.cons_append, List.cons_append, parseStringBody.eq_def]; simp [ih]
    · subst h5; rw [List.cons_append, List.cons_append, parseStringBody.eq_def]; simp [ih]
    · subst h6; rw [List.cons_append, List.cons_append, parseStringBody.eq_def]; simp [ih]
    · subst h7; rw [List.cons_append, List.cons_append, parseStringBody.eq_def]; simp [ih]
    · have hv0 : hexVal '0' = some 0 := by decide
      have hv1 : hexVal (jsonHexDigit (c.toNat / 16)) = some (c.toNat / 16) :=
        hexVal_jsonHexDigit _ (by omega)
      have hv2 : hexVal (jsonHexDigit (c.toNat % 16)) = some (c.toNat % 16) :=
        hexVal_jsonHexDigit _ (by omega)
      have harith : ((0 * 16 + 0) * 16 + c.toNat / 16) * 16 + c.toNat % 16 = c.toNat := by
        omega
      simp only [List.cons_append]
      rw [parseStringBody.eq_def]
      simp [hv0, hv1, hv2, ih, harith, Char.ofNat_toNat]
      rw [show c.toNat / 16 * 16 + c.toNat % 16 = c.toNat from by omega, Char.ofNat_toNat]
    · rw [List.cons_append, parseStringBody.eq_def]
      simp [h1, h2, h8, ih]

lemma parseStringBody_raw (k : List Char)
    (hk : ∀ c ∈ k, c ≠ '"' ∧ c ≠ '\\' ∧ 0x20 ≤ c.toNat) :
    ∀ rest, parseStringBody (k ++ '"' :: rest) = some (k, rest) := by
  induction k with
  | nil =>
    intro rest
    rw [List.nil_append, parseStringBody.eq_def]
    simp
  | cons c k ih =>
    intro rest
    obtain ⟨hc1, hc2, hc3⟩ := hk c (List.mem_cons_self c k)
    rw [List.cons_append, parseStringBody.eq_def]
    simp [hc1, hc2, show ¬c.toNat < 0x20 from by omega,
      ih (fun d hd => hk d (List.mem_cons_of_mem c hd))]

/-- C6: the serialized record parses back as a single JSON object with exactly
the three string-valued members id, user, title in this order carrying the
record's fields, and the line contains no line feed. -/
theorem to_string_shape (e : MovieEntry) :
    parseObj3 (MovieEntry.to_string e).data =
      some [(['i', 'd'], e.id.data), (['u', 's', 'e', 'r'], e.user.data),
        (['t', 'i', 't', 'l', 'e'], e.title.data)] ∧
    '\n' ∉ (MovieEntry.to_string e).data := by
  have hdata : (MovieEntry.to_string e).data = '\x7b' :: '"' :: 'i' :: 'd' :: '"' :: ':' :: '"' ::
      (escape_string e.id.data ++ '"' :: ',' :: '"' :: 'u' :: 's' :: 'e' :: 'r' :: '"' :: ':' :: '"' ::
        (escape_string e.user.data ++ '"' :: ',' :: '"' :: 't' :: 'i' :: 't' :: 'l' :: 'e' :: '"' :: ':' :: '"' ::
          (escape_string e.title.data ++ '"' :: '\x7d' :: []))) := rfl
  have hid : ∀ rest, parseStringBody ('i' :: 'd' :: '"' :: rest) = some (['i', 'd'], rest) :=
    fun rest => by simpa using parseStringBody_raw ['i', 'd'] (by decide) rest
  have huser : ∀ rest, parseStringBody ('u' :: 's' :: 'e' :: 'r' :: '"' :: rest) =
      some (['u', 's', 'e', 'r'], rest) :=
    fun rest => by simpa using parseStringBody_raw ['u', 's', 'e', 'r'] (by decide) rest
  have htitle : ∀ rest, parseStringBody ('t' :: 'i' :: 't' :: 'l' :: 'e' :: '"' :: rest) =
      some (['t', 'i', 't', 'l', 'e'], rest) :=
    fun rest => by simpa using parseStringBody_raw ['t', 'i', 't', 'l', 'e'] (by decide) rest
  refine ⟨?_, ?_⟩
  · rw [hdata]
    simp [parseObj3, parseMember, expectChar, hid, huser, htitle, parseStringBody_escape]
  · rw [hdata]
    intro hmem
    simp only [List.mem_cons, List.mem_append] at hmem
    rcases hmem with h | h | h | h | h | h | h | h
    · exact absurd h (by decide)
    · exact absurd h (by decide)
    · exact absurd h (by decide)
    · exact absurd h (by decide)
    · exact absurd h (by decide)
    · exact absurd h (by decide)
    · exact absurd h (by decide)
    rcases h with h | h
    · exact escape_string_no_nl _ h
    rcases h with h | h | h | h | h | h | h | h | h | h | h
    · exact absurd h (by decide)
    · exact absurd h (by decide)
    · exact absurd h (by decide)
    · exact absurd h (by decide)
    · exact absurd h (by decide)
    · exact absurd h (by decide)
    · exact absurd h (by decide)
    · exact absurd h (by decide)
    · exact absurd h (by decide)
    · exact absurd h (by decide)
    rcases h with h | h
    · exact escape_string_no_nl _ h
    rcases h with h | h | h | h | h | h | h | h | h | h | h | h
    · exact absurd h (by decide)
    · exact absurd h (by decide)
    · exact absurd h (by decide)
    · exact absurd h (by decide)
    · exact absurd h (by decide)
    · exact absurd h (by decide)
    · exact absurd h (by decide)
    · exact absurd h (by decide)
    · exact absurd h (by decide)
    · exact absurd h (by decide)
    · exact absurd h (by decide)
    rcases h with h | h | h
    · exact escape_string_no_nl _ h
    · exact absurd h (by decide)
    · exact absurd h (by decide)

end Lsmovie
